import Mathlib

/-!
# Verification of the MyC lexical analyzer (`lexical_analyzer.py`)

Shallow embedding of the scanner in `src/lexical_analyzer.py`.

Modelling conventions:
* The Python scanner keeps `source : str` and an index `position` that only
  ever moves forward, and every read is at `position` or `position + 1`.
  We represent the cursor state by the unconsumed suffix
  `rest = source[position:]` (a `List Char`); `position + 1 < len(source)`
  becomes "`rest` has at least two elements", `position += k` becomes
  dropping `k` characters.
* Python's character predicates `isspace` / `isdigit` / `isalpha` /
  `isalnum` are modelled on their ASCII fragment (the inputs of interest
  are ASCII).
* `raise LexicalError(...)` becomes `Except.error`; the driver loop in
  `analyze` and the comment-restart recursion in `next_token` are given
  explicit fuel (`none` = fuel exhausted, which never happens for the fuel
  bounds used, since every restart consumes at least two characters).
* Printing (`print(token)`, `print_table`) is presentation and is dropped.
* `SymbolTable.parent` is always `None` during lexing (no child scope is
  ever created), so the table is modelled as the single global scope: an
  association list with at most one entry per name, in insertion order,
  mirroring a Python `dict`.
-/

/-- ASCII fragment of Python's `str.isspace`. -/
def isPySpace (c : Char) : Bool :=
  c = ' ' || c = '\t' || c = '\n' || c = '\r' || c = '\x0b' || c = '\x0c'

/-- ASCII fragment of Python's `str.isdigit`. -/
def isPyDigit (c : Char) : Bool :=
  '0' ≤ c && c ≤ '9'

/-- ASCII fragment of Python's `str.isalpha`. -/
def isPyAlpha (c : Char) : Bool :=
  ('a' ≤ c && c ≤ 'z') || ('A' ≤ c && c ≤ 'Z')

/-- ASCII fragment of Python's `str.isalnum`. -/
def isPyAlnum (c : Char) : Bool :=
  isPyDigit c || isPyAlpha c

/-- The `TokenType` enumeration, in Python declaration order. -/
inductive TokenType where
  | LPAREN | RPAREN | LBRACE | RBRACE | COMMA | SEMICOLON
  | PLUS | MINUS | STAR | SLASH | PERCENT
  | LESS | GREATER | EQUAL | BANG | LBRACKET | RBRACKET
  | LE | GE | EQ | NE | OR | AND
  | IF | ELSE | WHILE | FOR | RETURN | BREAK | NEW | SIZE
  | VOID | BOOL | INT | FLOAT
  | BOOL_LIT | INT_LIT | FLOAT_LIT | IDENTIFIER
  | EOF
  deriving DecidableEq, Repr

/-- The `value` string of each enum member. -/
def TokenType.value : TokenType → String
  | .LPAREN => "(" | .RPAREN => ")" | .LBRACE => "\x7b" | .RBRACE => "\x7d"
  | .COMMA => "," | .SEMICOLON => ";"
  | .PLUS => "+" | .MINUS => "-" | .STAR => "*" | .SLASH => "/" | .PERCENT => "%"
  | .LESS => "<" | .GREATER => ">" | .EQUAL => "=" | .BANG => "!"
  | .LBRACKET => "[" | .RBRACKET => "]"
  | .LE => "<=" | .GE => ">=" | .EQ => "==" | .NE => "!=" | .OR => "||" | .AND => "&&"
  | .IF => "if" | .ELSE => "else" | .WHILE => "while" | .FOR => "for"
  | .RETURN => "return" | .BREAK => "break" | .NEW => "new" | .SIZE => "size"
  | .VOID => "void" | .BOOL => "bool" | .INT => "int" | .FLOAT => "float"
  | .BOOL_LIT => "BOOL_LIT" | .INT_LIT => "INT_LIT" | .FLOAT_LIT => "FLOAT_LIT"
  | .IDENTIFIER => "IDENTIFIER"
  | .EOF => "EOF"

/-- Iteration order of `for token_type in TokenType` (declaration order). -/
def TokenType.all : List TokenType :=
  [.LPAREN, .RPAREN, .LBRACE, .RBRACE, .COMMA, .SEMICOLON,
   .PLUS, .MINUS, .STAR, .SLASH, .PERCENT,
   .LESS, .GREATER, .EQUAL, .BANG, .LBRACKET, .RBRACKET,
   .LE, .GE, .EQ, .NE, .OR, .AND,
   .IF, .ELSE, .WHILE, .FOR, .RETURN, .BREAK, .NEW, .SIZE,
   .VOID, .BOOL, .INT, .FLOAT,
   .BOOL_LIT, .INT_LIT, .FLOAT_LIT, .IDENTIFIER,
   .EOF]

/-- The `Token` record: kind, lexeme text, 1-based line and column. -/
structure Token where
  type : TokenType
  value : String
  line : Nat
  column : Nat
  deriving DecidableEq, Repr

/-- `SymbolInfo.__init__` plus the attributes assigned after construction. -/
structure SymbolInfo where
  name : String
  type : String
  is_local : Bool
  array_length : Int
  return_type : Option String
  param_types : List String
  local_var_count : Nat
  deriving DecidableEq, Repr

/-- `SymbolInfo(name, type_)` with all default attribute values. -/
def SymbolInfo.new (name type_ : String) : SymbolInfo :=
  { name := name, type := type_, is_local := true, array_length := -1,
    return_type := none, param_types := [], local_var_count := 0 }

/-- The single (global) scope of the symbol table: a `dict` modelled as an
association list with at most one entry per name, in insertion order.
`parent` is always `None` during lexing, so it is not represented. -/
abbrev SymbolTable := List (String × SymbolInfo)

/-- `SymbolTable.insert`: `self.symbols[name] = info` — overwrites an
existing key in place, otherwise appends (Python dicts keep insertion
order). -/
def SymbolTable.insert (t : SymbolTable) (name : String) (info : SymbolInfo) :
    SymbolTable :=
  if t.any (fun p => p.1 = name) then
    t.map (fun p => if p.1 = name then (name, info) else p)
  else
    t ++ [(name, info)]

/-- `SymbolTable.lookup` with `parent = None` (the only case reachable
during lexing): key lookup in the current scope. -/
def SymbolTable.lookup (t : SymbolTable) (name : String) : Option SymbolInfo :=
  (t.find? (fun p => p.1 = name)).map (fun p => p.2)

/-- `LexicalError(message, line, column)`. -/
structure LexError where
  message : String
  line : Nat
  column : Nat
  deriving DecidableEq, Repr

instance {ε α : Type} [DecidableEq ε] [DecidableEq α] :
    DecidableEq (Except ε α) := fun a b =>
  match a, b with
  | .error e, .error f =>
    if h : e = f then .isTrue (by rw [h]) else .isFalse (by simp [h])
  | .error _, .ok _ => .isFalse (by simp)
  | .ok _, .error _ => .isFalse (by simp)
  | .ok x, .ok y =>
    if h : x = y then .isTrue (by rw [h]) else .isFalse (by simp [h])

/-- Mutable scanner state: the unconsumed suffix of the source
(`source[position:]`), the 1-based line and column, and the symbol table. -/
structure LexState where
  rest : List Char
  line : Nat
  column : Nat
  symbol_table : SymbolTable
  deriving DecidableEq, Repr

/-- `LexicalAnalyzer.KEYWORDS` (a dict, modelled as its entry list). -/
def KEYWORDS : List (String × TokenType) :=
  [("if", .IF), ("else", .ELSE), ("while", .WHILE), ("for", .FOR),
   ("return", .RETURN), ("break", .BREAK), ("new", .NEW), ("size", .SIZE),
   ("void", .VOID), ("bool", .BOOL), ("int", .INT), ("float", .FLOAT),
   ("true", .BOOL_LIT), ("false", .BOOL_LIT)]

/-- `identifier in KEYWORDS` / `KEYWORDS[identifier]` as one lookup. -/
def keywordType (w : String) : Option TokenType :=
  (KEYWORDS.find? (fun p => p.1 = w)).map (fun p => p.2)

/-- `LexicalAnalyzer.OPERATORS` (a dict, modelled as its entry list). -/
def OPERATORS : List (String × TokenType) :=
  [("<=", .LE), (">=", .GE), ("==", .EQ), ("!=", .NE), ("||", .OR), ("&&", .AND)]

/-- `op in OPERATORS` / `OPERATORS[op]` as one lookup, where `op` is the
two-character slice `source[position:position + 2]`. -/
def operatorType (op : String) : Option TokenType :=
  (OPERATORS.find? (fun p => p.1 = op)).map (fun p => p.2)

/-- The `read` built-in entry seeded by `initialize_built_in_functions`. -/
def readInfo : SymbolInfo :=
  { name := "read", type := "function", is_local := true, array_length := -1,
    return_type := some "any", param_types := ["void"], local_var_count := 0 }

/-- The `write` built-in entry seeded by `initialize_built_in_functions`. -/
def writeInfo : SymbolInfo :=
  { name := "write", type := "function", is_local := true, array_length := -1,
    return_type := some "void", param_types := ["any"], local_var_count := 0 }

/-- The symbol table right after `LexicalAnalyzer.__init__` (global scope
seeded with the two built-in functions). -/
def initialSymbolTable : SymbolTable :=
  (SymbolTable.insert [] "read" readInfo).insert "write" writeInfo

/-- `LexicalAnalyzer.__init__(source_code)`. -/
def initState (source : List Char) : LexState :=
  { rest := source, line := 1, column := 1, symbol_table := initialSymbolTable }

/-- Loop of `skip_whitespace`: consume leading whitespace, a newline
resetting the column to 1 and bumping the line, any other whitespace
bumping the column. -/
def skip_ws_chars : List Char → Nat → Nat → List Char × Nat × Nat
  | [], line, column => ([], line, column)
  | c :: cs, line, column =>
    if isPySpace c then
      skip_ws_chars cs (if c = '\n' then line + 1 else line)
        (if c = '\n' then 1 else column + 1)
    else (c :: cs, line, column)

/-- `skip_whitespace` on the scanner state. -/
def skip_whitespace (s : LexState) : LexState :=
  match skip_ws_chars s.rest s.line s.column with
  | (rest, line, column) => { s with rest := rest, line := line, column := column }

/-- Loop body of `skip_line_comment`: advance until a newline (kept) or
end of input; neither line nor column is updated by the Python code. -/
def skip_lc_chars : List Char → List Char
  | [] => []
  | c :: cs => if c = '\n' then c :: cs else skip_lc_chars cs

/-- `skip_line_comment`: drop the `//` (without touching line/column) and
run to the next newline, which is left unconsumed. -/
def skip_line_comment (s : LexState) : LexState :=
  { s with rest := skip_lc_chars (s.rest.drop 2) }

/-- Loop of `skip_block_comment`: the Python condition
`position < len(source) - 1` is "at least two characters remain"; a `*/`
pair is dropped without updating the column, any other character updates
line/column; running out raises `Unterminated block comment`. -/
def skip_bc_chars : List Char → Nat → Nat →
    Except LexError (List Char × Nat × Nat)
  | a :: b :: cs, line, column =>
    if a = '*' && b = '/' then .ok (cs, line, column)
    else if a = '\n' then skip_bc_chars (b :: cs) (line + 1) 1
    else skip_bc_chars (b :: cs) line (column + 1)
  | _, line, column => .error ⟨"Unterminated block comment", line, column⟩

/-- `skip_block_comment`: drop the `/*` (without touching line/column),
then scan for the closing `*/`. -/
def skip_block_comment (s : LexState) : Except LexError LexState :=
  match skip_bc_chars (s.rest.drop 2) s.line s.column with
  | .error e => .error e
  | .ok (rest, line, column) =>
    .ok { s with rest := rest, line := line, column := column }

/-- Loop of `scan_number`: greedily take digits, plus at most one `.`
(tracked by `is_float`); returns the remaining input, the updated column,
the accumulated text and the `is_float` flag. -/
def scan_number_chars : List Char → Nat → List Char → Bool →
    List Char × Nat × List Char × Bool
  | [], column, number, is_float => ([], column, number, is_float)
  | c :: cs, column, number, is_float =>
    if isPyDigit c then
      scan_number_chars cs (column + 1) (number ++ [c]) is_float
    else if c = '.' && !is_float then
      scan_number_chars cs (column + 1) (number ++ [c]) true
    else (c :: cs, column, number, is_float)

/-- `scan_number`: called with the cursor on a digit; a text that ends in
`.` raises `Invalid float literal` at the starting column, otherwise an
`INT_LIT` or `FLOAT_LIT` token at the starting column is produced.
(Python saves `start_column = self.column` before the loop mutates
`self.column`; here the state is immutable, so `s.column` is that value.) -/
def scan_number (s : LexState) : Except LexError (Token × LexState) :=
  match scan_number_chars s.rest s.column [] false with
  | (rest, column, number, is_float) =>
    if is_float then
      if number.getLast? = some '.' then
        .error ⟨"Invalid float literal", s.line, s.column⟩
      else
        .ok (⟨.FLOAT_LIT, String.mk number, s.line, s.column⟩,
          { s with rest := rest, column := column })
    else
      .ok (⟨.INT_LIT, String.mk number, s.line, s.column⟩,
        { s with rest := rest, column := column })

/-- Loop of `scan_identifier`: greedily take alphanumerics and `_`. -/
def scan_identifier_chars : List Char → Nat → List Char →
    List Char × Nat × List Char
  | [], column, identifier => ([], column, identifier)
  | c :: cs, column, identifier =>
    if isPyAlnum c || c = '_' then
      scan_identifier_chars cs (column + 1) (identifier ++ [c])
    else (c :: cs, column, identifier)

/-- `scan_identifier`: the accumulated text is a keyword token when it is
in `KEYWORDS`; otherwise it is an `IDENTIFIER`, inserted into the symbol
table with type `"unknown"` only when `lookup` does not find it. -/
def scan_identifier (s : LexState) : Token × LexState :=
  match scan_identifier_chars s.rest s.column [] with
  | (rest, column, identifier) =>
    match keywordType (String.mk identifier) with
    | some tt =>
      (⟨tt, String.mk identifier, s.line, s.column⟩,
        { s with rest := rest, column := column })
    | none =>
      (⟨.IDENTIFIER, String.mk identifier, s.line, s.column⟩,
        { s with
          rest := rest,
          column := column,
          symbol_table :=
            if (s.symbol_table.lookup (String.mk identifier)).isSome then
              s.symbol_table
            else
              s.symbol_table.insert (String.mk identifier)
                (SymbolInfo.new (String.mk identifier) "unknown") })

/-- Body of `next_token` after `skip_whitespace`, with `restart` standing
for the recursive `return self.next_token()` after a skipped comment.
Follows the Python branch order: end of input, comments, numbers,
identifiers/keywords, two-character operators, single-character tokens,
and finally the `Unexpected character` error (whose reported column is
`column - 1` after the increment, i.e. the character's own column). -/
def nt_step (restart : LexState → Option (Except LexError (Token × LexState)))
    (s : LexState) : Option (Except LexError (Token × LexState)) :=
  match s.rest with
  | [] => some (.ok (⟨.EOF, "", s.line, s.column⟩, s))
  | '/' :: '/' :: _ => restart (skip_line_comment s)
  | '/' :: '*' :: _ =>
    (match skip_block_comment s with
     | .error e => some (.error e)
     | .ok s2 => restart s2)
  | c :: cs =>
    if isPyDigit c then
      some (scan_number s)
    else if isPyAlpha c || c = '_' then
      some (.ok (scan_identifier s))
    else
      match cs with
      | c2 :: cs2 =>
        match operatorType (String.mk [c, c2]) with
        | some tt =>
          some (.ok (⟨tt, String.mk [c, c2], s.line, s.column⟩,
            { s with rest := cs2, column := s.column + 2 }))
        | none =>
          match TokenType.all.find? (fun t => t.value = String.mk [c]) with
          | some tt =>
            some (.ok (⟨tt, String.mk [c], s.line, s.column⟩,
              { s with rest := cs, column := s.column + 1 }))
          | none =>
            some (.error ⟨"Unexpected character: " ++ String.mk [c],
              s.line, s.column⟩)
      | [] =>
        match TokenType.all.find? (fun t => t.value = String.mk [c]) with
        | some tt =>
          some (.ok (⟨tt, String.mk [c], s.line, s.column⟩,
            { s with rest := cs, column := s.column + 1 }))
        | none =>
          some (.error ⟨"Unexpected character: " ++ String.mk [c],
            s.line, s.column⟩)

/-- `next_token`: skip whitespace, then dispatch; the fuel bounds the
comment-restart recursion only (each restart has consumed at least the
two-character comment opener). -/
def next_token : Nat → LexState → Option (Except LexError (Token × LexState))
  | 0, _ => none
  | fuel + 1, s => nt_step (next_token fuel) (skip_whitespace s)

/-- Driver loop of `analyze`: collect tokens until `EOF` is appended; each
`next_token` call gets fuel `rest.length + 1`, always sufficient. -/
def analyze_loop : Nat → LexState →
    Option (Except LexError (List Token × LexState))
  | 0, _ => none
  | fuel + 1, s =>
    match next_token (s.rest.length + 1) s with
    | none => none
    | some (.error e) => some (.error e)
    | some (.ok (t, s2)) =>
      if t.type = .EOF then some (.ok ([t], s2))
      else
        match analyze_loop fuel s2 with
        | none => none
        | some (.error e) => some (.error e)
        | some (.ok (ts, s3)) => some (.ok (t :: ts, s3))

/-- `LexicalAnalyzer(source).analyze()`: the token list and final state,
or the raised `LexicalError`. -/
def analyze (source : List Char) :
    Option (Except LexError (List Token × LexState)) :=
  analyze_loop (source.length + 1) (initState source)

/-! ## Reference line/column of a character position

Independent reference definitions used to state what the *correct* 1-based
line and column of a character of the source would be, for comparison with
the line/column the scanner reports. -/

/-- Correct 1-based line of the character at index `i` of `src`. -/
def lineOf (src : List Char) (i : Nat) : Nat :=
  1 + (src.take i).count '\n'

/-- Correct 1-based column of the character at index `i` of `src`:
one more than the number of characters after the last newline before `i`. -/
def columnOf (src : List Char) (i : Nat) : Nat :=
  ((src.take i).reverse.takeWhile (fun c => c ≠ '\n')).length + 1

/-- C1: the spec says a numeric literal with a leading `.` and no leading
digit, such as `.14`, is accepted. The code disagrees: `scan_number` is
only entered when the current character is a digit, `.` matches no token
rule, so scanning `".14"` raises `Unexpected character: .` at line 1,
column 1 — the scan fails, including on the `.14` in the sample program. -/
theorem c1_leading_dot_literal_rejected :
    analyze (".14".toList) =
      some (.error ⟨"Unexpected character: .", 1, 1⟩) := by
  decide

/-- C2: after a block comment spanning lines, the next token's line is
correct but its column is not: for `"/*a\nb*/ x"` the token `x` (source
index 8, truly at line 2, column 5) is reported at column 3, because
`skip_block_comment` consumes the `*/` closer (and the `/*` opener)
without updating the column. -/
theorem c2_block_comment_column_wrong :
    (∃ s, analyze ("/*a\nb*/ x".toList) =
        some (.ok ([⟨.IDENTIFIER, "x", 2, 3⟩, ⟨.EOF, "", 2, 4⟩], s))) ∧
    ("/*a\nb*/ x".toList).get? 8 = some 'x' ∧
    lineOf ("/*a\nb*/ x".toList) 8 = 2 ∧
    columnOf ("/*a\nb*/ x".toList) 8 = 5 := by
  refine ⟨⟨_, rfl⟩, by decide, by decide, by decide⟩

/-- C6: on input `"@"`, `next_token` raises `Unexpected character: @` at
line 1, column 1, and the full scan produces no tokens, only that error. -/
theorem c6_unexpected_character_at :
    next_token 1 (initState ("@".toList)) =
      some (.error ⟨"Unexpected character: @", 1, 1⟩) ∧
    analyze ("@".toList) =
      some (.error ⟨"Unexpected character: @", 1, 1⟩) := by
  exact ⟨rfl, rfl⟩

/-- C7: on `"x <= y >= z == w != v && k || m"` the token kinds are exactly
`IDENTIFIER, LE, IDENTIFIER, GE, IDENTIFIER, EQ, IDENTIFIER, NE,
IDENTIFIER, AND, IDENTIFIER, OR, IDENTIFIER, EOF`: every two-character
operator is matched as a unit, never decomposed. -/
theorem c7_two_char_operators_maximal_munch :
    (analyze ("x <= y >= z == w != v && k || m".toList)).map
        (Except.map (fun p => p.1.map Token.type)) =
      some (.ok
        [.IDENTIFIER, .LE, .IDENTIFIER, .GE, .IDENTIFIER, .EQ,
         .IDENTIFIER, .NE, .IDENTIFIER, .AND, .IDENTIFIER, .OR,
         .IDENTIFIER, .EOF]) := by
  decide


/-! ## End-of-input behaviour -/

theorem skip_whitespace_at_end {s : LexState} (h : s.rest = []) :
    skip_whitespace s = s := by
  obtain ⟨rest, line, column, st⟩ := s
  simp only at h
  subst h
  rfl

theorem keywordType_ne_eof {w : String} {tt : TokenType}
    (h : keywordType w = some tt) : tt ≠ .EOF := by
  unfold keywordType at h
  cases hf : KEYWORDS.find? (fun p => p.1 = w) with
  | none => rw [hf] at h; exact absurd h (by simp)
  | some p =>
    rw [hf] at h
    injection h with h
    subst h
    have hmem := List.mem_of_find?_eq_some hf
    fin_cases hmem <;> decide

theorem operatorType_ne_eof {op : String} {tt : TokenType}
    (h : operatorType op = some tt) : tt ≠ .EOF := by
  unfold operatorType at h
  cases hf : OPERATORS.find? (fun p => p.1 = op) with
  | none => rw [hf] at h; exact absurd h (by simp)
  | some p =>
    rw [hf] at h
    injection h with h
    subst h
    have hmem := List.mem_of_find?_eq_some hf
    fin_cases hmem <;> decide

theorem single_char_ne_eof {c : Char} {tt : TokenType}
    (h : TokenType.all.find? (fun u => u.value = String.mk [c]) = some tt) :
    tt ≠ .EOF := by
  have hp := List.find?_some h
  intro he
  subst he
  simp only [decide_eq_true_eq] at hp
  have hlen := congrArg String.length hp
  have h3 : (TokenType.EOF.value).length = 3 := rfl
  have h1 : (String.mk [c]).length = 1 := rfl
  rw [h3, h1] at hlen
  exact absurd hlen (by decide)

theorem scan_number_ok_type {s : LexState} {t : Token} {s2 : LexState}
    (h : scan_number s = .ok (t, s2)) : t.type ≠ .EOF := by
  unfold scan_number at h
  split at h
  split at h
  · split at h
    · exact absurd h (by simp)
    · injection h with h
      injection h with h hs
      subst h
      exact fun hc => TokenType.noConfusion hc
  · injection h with h
    injection h with h hs
    subst h
    exact fun hc => TokenType.noConfusion hc

theorem scan_identifier_type {s : LexState} {t : Token} {s2 : LexState}
    (h : scan_identifier s = (t, s2)) : t.type ≠ .EOF := by
  unfold scan_identifier at h
  split at h
  split at h
  · injection h with h hs
    subst h
    exact fun hc => keywordType_ne_eof (by assumption) (by simpa using hc)
  · injection h with h hs
    subst h
    exact fun hc => TokenType.noConfusion hc

/-- An `EOF` token is only produced by the end-of-input branch: the state
returned with it has an empty remaining input, and the token carries that
state's line and column. -/
theorem next_token_eof_state {fuel : Nat} {s s2 : LexState} {t : Token}
    (h : next_token fuel s = some (.ok (t, s2))) (ht : t.type = .EOF) :
    s2.rest = [] ∧ t = ⟨.EOF, "", s2.line, s2.column⟩ := by
  induction fuel generalizing s with
  | zero => exact absurd h (by simp [next_token])
  | succ fuel ih =>
    rw [next_token] at h
    unfold nt_step at h
    split at h
    · injection h with h
      injection h with h
      injection h with ht2 hs2
      subst hs2
      subst ht2
      exact ⟨by assumption, rfl⟩
    · exact ih h
    · split at h
      · exact absurd h (by simp)
      · exact ih h
    · split at h
      · injection h with h
        exact absurd ht (scan_number_ok_type h)
      · split at h
        · injection h with h
          injection h with h
          exact absurd ht (scan_identifier_type h)
        · split at h
          · split at h
            · injection h with h
              injection h with h
              injection h with ht2 hs2
              subst ht2
              exact absurd (by simpa using ht) (operatorType_ne_eof (by assumption))
            · split at h
              · injection h with h
                injection h with h
                injection h with ht2 hs2
                subst ht2
                exact absurd (by simpa using ht) (single_char_ne_eof (by assumption))
              · exact absurd h (by simp)
          · split at h
            · injection h with h
              injection h with h
              injection h with ht2 hs2
              subst ht2
              exact absurd (by simpa using ht) (single_char_ne_eof (by assumption))
            · exact absurd h (by simp)

/-- C8: once `next_token` has returned the end-of-input token, every later
call returns the end-of-input token again (same line/column as the state),
never raises, and leaves the whole scanner state — cursor (remaining
input), line and column — unchanged. -/
theorem c8_next_token_idempotent_after_eof
    (fuel fuel2 : Nat) (s s2 : LexState) (t : Token)
    (h : next_token fuel s = some (.ok (t, s2))) (ht : t.type = .EOF) :
    next_token (fuel2 + 1) s2 =
      some (.ok (⟨.EOF, "", s2.line, s2.column⟩, s2)) := by
  obtain ⟨hrest, -⟩ := next_token_eof_state h ht
  rw [next_token, skip_whitespace_at_end hrest]
  unfold nt_step
  rw [hrest]

/-- Witness for C8 at the empty input. -/
theorem c8_witness :
    next_token 1 (initState []) =
      some (.ok (⟨.EOF, "", 1, 1⟩, initState [])) :=
  c8_next_token_idempotent_after_eof 1 0 (initState []) (initState [])
    ⟨.EOF, "", 1, 1⟩ rfl rfl

/-! ## Shape of a successful full scan -/

/-- A successful `analyze_loop` returns the non-`EOF` tokens followed by
exactly one final `EOF` token. -/
theorem analyze_loop_shape {fuel : Nat} {s : LexState} {ts : List Token}
    {s2 : LexState} (h : analyze_loop fuel s = some (.ok (ts, s2))) :
    ∃ ts0 t, ts = ts0 ++ [t] ∧ t.type = .EOF ∧ ∀ u ∈ ts0, u.type ≠ .EOF := by
  induction fuel generalizing s ts with
  | zero => exact absurd h (by simp [analyze_loop])
  | succ fuel ih =>
    rw [analyze_loop] at h
    split at h
    · exact absurd h (by simp)
    · exact absurd h (by simp)
    · rename_i t s3 heq
      split at h
      · injection h with h
        injection h with h
        injection h with hts hs
        refine ⟨[], t, by simp [← hts], by assumption, by simp⟩
      · rename_i hne
        split at h
        · exact absurd h (by simp)
        · exact absurd h (by simp)
        · rename_i ts4 s4 heq4
          injection h with h
          injection h with h
          injection h with hts hs
          subst hs
          obtain ⟨ts0, te, hshape, heof, hrest⟩ := ih heq4
          refine ⟨t :: ts0, te, ?_, heof, ?_⟩
          · rw [← hts, hshape]
            rfl
          · intro u hu
            rcases List.mem_cons.mp hu with rfl | hu
            · exact hne
            · exact hrest u hu

/-- C9: whenever a full scan succeeds, the token sequence is nonempty, its
last element is the end-of-input token, and the end-of-input kind occurs
exactly once in the sequence. -/
theorem c9_analyze_single_trailing_eof (source : List Char) (ts : List Token)
    (s2 : LexState) (h : analyze source = some (.ok (ts, s2))) :
    ts ≠ [] ∧ (ts.getLast?).map Token.type = some .EOF ∧
      (ts.filter (fun u => u.type = .EOF)).length = 1 := by
  obtain ⟨ts0, t, hshape, heof, hrest⟩ := analyze_loop_shape h
  subst hshape
  refine ⟨by simp, ?_, ?_⟩
  · rw [List.getLast?_concat]
    simp [heof]
  · rw [List.filter_append]
    have h0 : ts0.filter (fun u => decide (u.type = .EOF)) = [] := by
      rw [List.filter_eq_nil_iff]
      intro u hu
      simpa using hrest u hu
    rw [h0]
    simp [heof]

/-- Witness for C9 at the empty input. -/
theorem c9_witness :
    ([(⟨.EOF, "", 1, 1⟩ : Token)] ≠ []) ∧
      (([(⟨.EOF, "", 1, 1⟩ : Token)].getLast?).map Token.type = some .EOF) ∧
      (([(⟨.EOF, "", 1, 1⟩ : Token)].filter (fun u => u.type = .EOF)).length = 1) :=
  c9_analyze_single_trailing_eof [] [⟨.EOF, "", 1, 1⟩] (initState []) rfl

/-! ## Numeric literal scanning -/

theorem digit_not_space {c : Char} (h : isPyDigit c = true) :
    isPySpace c = false := by
  unfold isPySpace
  unfold isPyDigit at h
  rcases Bool.and_eq_true _ _ |>.mp h with ⟨h0, h9⟩
  simp only [decide_eq_true_eq] at h0 h9
  simp only [Bool.or_eq_false_iff, decide_eq_false_iff_not]
  refine ⟨⟨⟨⟨⟨?_, ?_⟩, ?_⟩, ?_⟩, ?_⟩, ?_⟩ <;>
    (intro hc; subst hc; revert h0 h9; decide)

theorem digit_ne_slash {c : Char} (h : isPyDigit c = true) : c ≠ '/' := by
  intro hc
  subst hc
  exact absurd h (by decide)

theorem digit_ne_dot {c : Char} (h : isPyDigit c = true) : c ≠ '.' := by
  intro hc
  subst hc
  exact absurd h (by decide)

/-- `skip_whitespace` does nothing when the current character is not
whitespace. -/
theorem skip_whitespace_no_space {s : LexState} {c : Char} {cs : List Char}
    (h1 : s.rest = c :: cs) (h2 : isPySpace c = false) :
    skip_whitespace s = s := by
  obtain ⟨rest, line, column, st⟩ := s
  simp only at h1
  subst h1
  unfold skip_whitespace skip_ws_chars
  rw [h2]
  rfl

/-- Complete characterization of the `scan_number` consumption loop. -/
theorem scan_number_chars_spec (input : List Char) :
    ∀ (col : Nat) (acc : List Char) (isf : Bool),
    ∃ consumed rest2,
      scan_number_chars input col acc isf =
        (rest2, col + consumed.length, acc ++ consumed,
          isf || consumed.contains '.') ∧
      input = consumed ++ rest2 ∧
      consumed.count '.' =
        (if isf then 0 else if consumed.contains '.' then 1 else 0) ∧
      (∀ x ∈ consumed, isPyDigit x = true ∨ x = '.') ∧
      (rest2 = [] ∨ ∃ d ds, rest2 = d :: ds ∧ isPyDigit d = false ∧
        (d ≠ '.' ∨ (isf || consumed.contains '.') = true)) := by
  induction input with
  | nil =>
    intro col acc isf
    exact ⟨[], [], by simp [scan_number_chars], by simp, by simp, by simp,
      Or.inl rfl⟩
  | cons c cs ih =>
    intro col acc isf
    by_cases hd : isPyDigit c = true
    · obtain ⟨consumed, rest2, heq, hsplit, hcount, hall, hmax⟩ :=
        ih (col + 1) (acc ++ [c]) isf
      refine ⟨c :: consumed, rest2, ?_, ?_, ?_, ?_, ?_⟩
      · rw [scan_number_chars, if_pos hd, heq]
        have hne2 : ¬ ('.' = c) := fun hc => digit_ne_dot hd hc.symm
        simp [hne2, Nat.add_assoc, Nat.add_comm 1]
      · simp [hsplit]
      · have hne2 : ¬ ('.' = c) := fun hc => digit_ne_dot hd hc.symm
        simp only [List.count_cons, List.contains_cons]
        simp [hne2, hcount, digit_ne_dot hd]
      · intro x hx
        rcases List.mem_cons.mp hx with rfl | hx
        · exact Or.inl hd
        · exact hall x hx
      · rcases hmax with h0 | ⟨d, ds, hr, hnd, hdd⟩
        · exact Or.inl h0
        · refine Or.inr ⟨d, ds, hr, hnd, ?_⟩
          rcases hdd with hdd | hdd
          · exact Or.inl hdd
          · right
            simp only [List.contains_cons]
            rcases Bool.or_eq_true _ _ |>.mp hdd with h | h
            · simp [h]
            · have hm : '.' ∈ consumed := by simpa using h
              simp [hm]
    · by_cases hdot : (c = '.' ∧ isf = false)
      · obtain ⟨rfl, rfl⟩ := hdot
        obtain ⟨consumed, rest2, heq, hsplit, hcount, hall, hmax⟩ :=
          ih (col + 1) (acc ++ ['.']) true
        refine ⟨'.' :: consumed, rest2, ?_, ?_, ?_, ?_, ?_⟩
        · rw [scan_number_chars, if_neg (by simp [hd]), if_pos (by simp)]
          rw [heq]
          simp [Nat.add_assoc, Nat.add_comm 1]
        · simp [hsplit]
        · simp only [List.count_cons, List.contains_cons]
          simp [hcount]
        · intro x hx
          rcases List.mem_cons.mp hx with rfl | hx
          · exact Or.inr rfl
          · exact hall x hx
        · rcases hmax with h0 | ⟨d, ds, hr, hnd, hdd⟩
          · exact Or.inl h0
          · exact Or.inr ⟨d, ds, hr, hnd, Or.inr (by simp)⟩
      · refine ⟨[], c :: cs, ?_, by simp, by simp, by simp, ?_⟩
        · rw [scan_number_chars, if_neg (by simp [hd])]
          have hcf : (c = '.' && !isf) = false := by
            cases isf with
            | true => simp
            | false =>
              simp only [Bool.not_false, Bool.and_true, decide_eq_false_iff_not]
              intro hc
              exact hdot ⟨hc, rfl⟩
          rw [hcf]
          simp
        · refine Or.inr ⟨c, cs, rfl, by simpa using hd, ?_⟩
          cases isf with
          | true => exact Or.inr (by simp)
          | false =>
            left
            intro hc
            exact hdot ⟨hc, rfl⟩

theorem mem_of_getLast?_eq_some {α : Type} {l : List α} {a : α}
    (h : l.getLast? = some a) : a ∈ l := by
  induction l with
  | nil => exact absurd h (by simp)
  | cons c cs ih =>
    cases cs with
    | nil =>
      simp only [List.getLast?_singleton, Option.some.injEq] at h
      simp [h]
    | cons b bs =>
      rw [List.getLast?_cons_cons] at h
      exact List.mem_cons_of_mem _ (ih h)

/-- When the current character is a digit, `next_token` is exactly
`scan_number` (whitespace skipping does nothing, no comment or other
branch applies). -/
theorem next_token_digit_start {fuel : Nat} {s : LexState} {c : Char}
    {cs : List Char} (h1 : s.rest = c :: cs) (h2 : isPyDigit c = true) :
    next_token (fuel + 1) s = some (scan_number s) := by
  rw [next_token, skip_whitespace_no_space h1 (digit_not_space h2)]
  unfold nt_step
  rw [h1]
  split
  · rename_i heq
    exact absurd heq (by simp)
  · rename_i heq
    injection heq with hc _
    exact absurd hc (digit_ne_slash h2)
  · rename_i heq
    injection heq with hc _
    exact absurd hc (digit_ne_slash h2)
  · rename_i c2 cs2 _ _ heq
    injection heq with hc hcs
    subst hc
    rw [if_pos h2]

/-- C5: with the cursor on a digit, `next_token` runs `scan_number`; the
maximal digits-and-at-most-one-dot prefix `num` is consumed; if it ends in
`.` the scan fails with `Invalid float literal` at the literal's starting
column; otherwise the token is an `INT_LIT` with no `.` consumed or a
`FLOAT_LIT` with exactly one `.` consumed, its lexeme exactly `num`. -/
theorem c5_scan_number_correct (s : LexState) (c : Char) (cs : List Char)
    (fuel : Nat) (h1 : s.rest = c :: cs) (h2 : isPyDigit c = true) :
    next_token (fuel + 1) s = some (scan_number s) ∧
    ∃ num rest2,
      s.rest = num ++ rest2 ∧ num ≠ [] ∧
      (∀ x ∈ num, isPyDigit x = true ∨ x = '.') ∧
      (rest2 = [] ∨ ∃ d ds, rest2 = d :: ds ∧ isPyDigit d = false ∧
        (d ≠ '.' ∨ num.contains '.' = true)) ∧
      (if num.getLast? = some '.' then
          scan_number s = .error ⟨"Invalid float literal", s.line, s.column⟩
        else if num.contains '.' = true then
          scan_number s =
            .ok (⟨.FLOAT_LIT, String.mk num, s.line, s.column⟩,
              { s with rest := rest2, column := s.column + num.length }) ∧
            num.count '.' = 1
        else
          scan_number s =
            .ok (⟨.INT_LIT, String.mk num, s.line, s.column⟩,
              { s with rest := rest2, column := s.column + num.length }) ∧
            num.count '.' = 0) := by
  refine ⟨next_token_digit_start h1 h2, ?_⟩
  obtain ⟨consumed, rest2, heq, hsplit, hcount, hall, hmax⟩ :=
    scan_number_chars_spec s.rest s.column [] false
  have hne : consumed ≠ [] := by
    intro hnil
    subst hnil
    simp only [List.nil_append] at hsplit
    rcases hmax with h0 | ⟨d, ds, hr, hnd, _⟩
    · rw [h0] at hsplit
      rw [hsplit] at h1
      exact absurd h1 (by simp)
    · rw [hr] at hsplit
      rw [hsplit] at h1
      injection h1 with hc _
      rw [hc, h2] at hnd
      exact absurd hnd (by simp)
  have hsn : scan_number s =
      (if (false || consumed.contains '.') = true then
        if consumed.getLast? = some '.' then
          Except.error ⟨"Invalid float literal", s.line, s.column⟩
        else
          Except.ok (⟨.FLOAT_LIT, String.mk consumed, s.line, s.column⟩,
            { s with rest := rest2, column := s.column + consumed.length })
      else
        Except.ok (⟨.INT_LIT, String.mk consumed, s.line, s.column⟩,
          { s with rest := rest2, column := s.column + consumed.length })) := by
    unfold scan_number
    rw [heq]
    rfl
  rw [Bool.false_or] at hsn
  refine ⟨consumed, rest2, hsplit, hne, hall, hmax, ?_⟩
  by_cases hLast : consumed.getLast? = some '.'
  · rw [if_pos hLast]
    have hMem : consumed.contains '.' = true := by
      simpa using mem_of_getLast?_eq_some hLast
    rw [hMem] at hsn
    rw [hsn]
    rw [if_pos rfl, if_pos hLast]
  · rw [if_neg hLast]
    by_cases hMem : consumed.contains '.' = true
    · rw [if_pos hMem]
      rw [hMem] at hsn
      refine ⟨?_, ?_⟩
      · rw [hsn, if_pos rfl, if_neg hLast]
      · rw [hcount]
        have hm : '.' ∈ consumed := by simpa using hMem
        simp [hm]
    · rw [if_neg hMem]
      have hMemF : consumed.contains '.' = false := by
        simpa using hMem
      rw [hMemF] at hsn
      refine ⟨?_, ?_⟩
      · rw [hsn]
        simp
      · rw [hcount]
        have hm : '.' ∉ consumed := by simpa using hMemF
        simp [hm]

/-- Witness for C5 at the input `45.67`. -/
theorem c5_witness :
    next_token 1 (initState ("45.67".toList)) =
      some (scan_number (initState ("45.67".toList))) :=
  (c5_scan_number_correct (initState ("45.67".toList)) '4' ("5.67".toList)
    0 rfl rfl).1

/-! ## Symbol-table invariants -/

/-- `t2` keeps every entry `t` could already look up: nothing is ever
overwritten or removed by scanning (first occurrence wins). -/
def TableExtends (t t2 : SymbolTable) : Prop :=
  ∀ n i, t.lookup n = some i → t2.lookup n = some i

/-- Invariant of the symbol table throughout scanning: keys are unique,
the two built-in entries are intact, and every other entry is a
non-keyword name mapped to a fresh `"unknown"` record. -/
def TableInv (t : SymbolTable) : Prop :=
  (t.map Prod.fst).Nodup ∧
  t.lookup "read" = some readInfo ∧
  t.lookup "write" = some writeInfo ∧
  ∀ p ∈ t, (p.1 = "read" ∧ p.2 = readInfo) ∨ (p.1 = "write" ∧ p.2 = writeInfo) ∨
    (keywordType p.1 = none ∧ p.2 = SymbolInfo.new p.1 "unknown" ∧
      p.1 ≠ "read" ∧ p.1 ≠ "write")

theorem tableExtends_refl (t : SymbolTable) : TableExtends t t :=
  fun _ _ h => h

theorem tableExtends_trans {t1 t2 t3 : SymbolTable}
    (h1 : TableExtends t1 t2) (h2 : TableExtends t2 t3) :
    TableExtends t1 t3 :=
  fun n i h => h2 n i (h1 n i h)

theorem initial_table_inv : TableInv initialSymbolTable := by
  refine ⟨by decide, by decide, by decide, ?_⟩
  decide

/-- Inserting an absent key appends it. -/
theorem insert_of_lookup_none {t : SymbolTable} {w : String} {i : SymbolInfo}
    (h : t.lookup w = none) : t.insert w i = t ++ [(w, i)] := by
  unfold SymbolTable.insert
  rw [if_neg]
  intro hany
  obtain ⟨p, hp, hpw⟩ := List.any_eq_true.mp hany
  unfold SymbolTable.lookup at h
  rw [Option.map_eq_none'] at h
  rw [List.find?_eq_none] at h
  exact absurd hpw (by simpa using h p hp)

theorem lookup_append (t : SymbolTable) (w : String) (i : SymbolInfo)
    (n : String) :
    (t ++ [(w, i)]).lookup n =
      ((t.lookup n).or (if w = n then some i else none)) := by
  unfold SymbolTable.lookup
  rw [List.find?_append]
  cases hf : t.find? (fun p => p.1 = n) with
  | some p => simp
  | none =>
    simp only [Option.map_none, Option.none_or]
    by_cases hw : w = n
    · simp [List.find?, hw]
    · simp [List.find?, hw]

theorem lookup_none_not_key {t : SymbolTable} {w : String}
    (h : t.lookup w = none) : w ∉ t.map Prod.fst := by
  intro hmem
  obtain ⟨p, hp, hpw⟩ := List.mem_map.mp hmem
  unfold SymbolTable.lookup at h
  rw [Option.map_eq_none', List.find?_eq_none] at h
  exact absurd (by simpa using hpw) (by simpa using h p hp)

theorem keywordType_ne_ident {w : String} {tt : TokenType}
    (h : keywordType w = some tt) : tt ≠ .IDENTIFIER := by
  unfold keywordType at h
  cases hf : KEYWORDS.find? (fun p => p.1 = w) with
  | none => rw [hf] at h; exact absurd h (by simp)
  | some p =>
    rw [hf] at h
    injection h with h
    subst h
    have hmem := List.mem_of_find?_eq_some hf
    fin_cases hmem <;> decide

theorem operatorType_ne_ident {op : String} {tt : TokenType}
    (h : operatorType op = some tt) : tt ≠ .IDENTIFIER := by
  unfold operatorType at h
  cases hf : OPERATORS.find? (fun p => p.1 = op) with
  | none => rw [hf] at h; exact absurd h (by simp)
  | some p =>
    rw [hf] at h
    injection h with h
    subst h
    have hmem := List.mem_of_find?_eq_some hf
    fin_cases hmem <;> decide

theorem single_char_ne_ident {c : Char} {tt : TokenType}
    (h : TokenType.all.find? (fun u => u.value = String.mk [c]) = some tt) :
    tt ≠ .IDENTIFIER := by
  have hp := List.find?_some h
  intro he
  subst he
  simp only [decide_eq_true_eq] at hp
  have hlen := congrArg String.length hp
  have h3 : (TokenType.IDENTIFIER.value).length = 10 := rfl
  have h1 : (String.mk [c]).length = 1 := rfl
  rw [h3, h1] at hlen
  exact absurd hlen (by decide)

/-- The table after `scan_identifier` extends the table before it, still
satisfies the invariant, and — when the produced token is an
`IDENTIFIER` — has an entry for the scanned name. -/
theorem scan_identifier_table {s : LexState} {t : Token} {s2 : LexState}
    (hInv : TableInv s.symbol_table) (h : scan_identifier s = (t, s2)) :
    TableInv s2.symbol_table ∧ TableExtends s.symbol_table s2.symbol_table ∧
    (t.type = .IDENTIFIER →
      ∃ i, s2.symbol_table.lookup t.value = some i) ∧
    ((t.value = "read" ∨ t.value = "write") → t.type = .IDENTIFIER) := by
  unfold scan_identifier at h
  split at h
  rename_i rest2 col2 ident heq0
  split at h
  · rename_i tt hkw
    injection h with hth hs
    subst hs
    refine ⟨hInv, tableExtends_refl _, ?_, ?_⟩
    · intro hid
      rw [← hth] at hid
      have hid2 : tt = TokenType.IDENTIFIER := hid
      subst hid2
      exact absurd rfl (keywordType_ne_ident hkw)
    · intro hv
      rw [← hth] at hv
      have hv2 : String.mk ident = "read" ∨ String.mk ident = "write" := hv
      exfalso
      rcases hv2 with hv2 | hv2
      · rw [hv2] at hkw
        rw [show keywordType "read" = none from rfl] at hkw
        exact Option.noConfusion hkw
      · rw [hv2] at hkw
        rw [show keywordType "write" = none from rfl] at hkw
        exact Option.noConfusion hkw
  · rename_i hkw
    injection h with hth hs
    subst hs
    by_cases hfound :
        (s.symbol_table.lookup (String.mk ident)).isSome = true
    · have hif : (if (s.symbol_table.lookup (String.mk ident)).isSome = true
          then s.symbol_table
          else s.symbol_table.insert (String.mk ident)
            (SymbolInfo.new (String.mk ident) "unknown")) = s.symbol_table :=
        if_pos hfound
      refine ⟨?_, ?_, ?_, ?_⟩
      · simpa only [hif] using hInv
      · intro n i hi
        simpa only [hif] using hi
      · intro _
        rw [← hth]
        simp only [hif]
        obtain ⟨i, hi⟩ := Option.isSome_iff_exists.mp hfound
        exact ⟨i, hi⟩
      · intro _
        rw [← hth]
    · have hnone : s.symbol_table.lookup (String.mk ident) = none := by
        rcases ho : s.symbol_table.lookup (String.mk ident) with _ | i
        · rfl
        · rw [ho] at hfound
          exact absurd rfl hfound
      have hins := insert_of_lookup_none
        (i := SymbolInfo.new (String.mk ident) "unknown") hnone
      have hfneg : ¬ ((s.symbol_table.lookup (String.mk ident)).isSome = true) :=
        hfound
      obtain ⟨hnodup, hread, hwrite, hchar⟩ := hInv
      have hwread : String.mk ident ≠ "read" := by
        intro hc
        rw [hc] at hnone
        rw [hnone] at hread
        exact absurd hread (by simp)
      have hwwrite : String.mk ident ≠ "write" := by
        intro hc
        rw [hc] at hnone
        rw [hnone] at hwrite
        exact absurd hwrite (by simp)
      constructor
      · -- invariant for the extended table
        simp only [if_neg hfneg, hins]
        refine ⟨?_, ?_, ?_, ?_⟩
        · rw [List.map_append]
          rw [List.nodup_append]
          refine ⟨hnodup, by simp, ?_⟩
          intro a ha hb
          simp only [List.map_cons, List.map_nil, List.mem_singleton] at hb
          subst hb
          exact lookup_none_not_key hnone ha
        · rw [lookup_append]
          rw [hread]
          rfl
        · rw [lookup_append]
          rw [hwrite]
          rfl
        · intro p hp
          rcases List.mem_append.mp hp with hp | hp
          · exact hchar p hp
          · rw [List.mem_singleton] at hp
            subst hp
            exact Or.inr (Or.inr ⟨hkw, rfl, hwread, hwwrite⟩)
      constructor
      · -- extension
        intro n i hi
        simp only [if_neg hfneg, hins]
        rw [lookup_append, hi]
        rfl
      constructor
      · -- the identifier is present afterwards
        intro _
        rw [← hth]
        simp only [if_neg hfneg, hins]
        rw [lookup_append, hnone]
        simp
      · intro _
        rw [← hth]

theorem skip_whitespace_table (s : LexState) :
    (skip_whitespace s).symbol_table = s.symbol_table := by
  unfold skip_whitespace
  split
  rfl

theorem skip_line_comment_table (s : LexState) :
    (skip_line_comment s).symbol_table = s.symbol_table := rfl

theorem skip_block_comment_table {s s2 : LexState}
    (h : skip_block_comment s = .ok s2) :
    s2.symbol_table = s.symbol_table := by
  unfold skip_block_comment at h
  split at h
  · exact absurd h (by simp)
  · injection h with h
    rw [← h]

theorem scan_number_ok_table {s : LexState} {t : Token} {s2 : LexState}
    (h : scan_number s = .ok (t, s2)) :
    s2.symbol_table = s.symbol_table := by
  unfold scan_number at h
  split at h
  split at h
  · split at h
    · exact absurd h (by simp)
    · injection h with h
      injection h with _ hs
      rw [← hs]
  · injection h with h
    injection h with _ hs
    rw [← hs]

/-- Every character of a token produced by `scan_number` is a digit or a
dot. -/
theorem scan_number_ok_chars {s : LexState} {t : Token} {s2 : LexState}
    (h : scan_number s = .ok (t, s2)) :
    ∀ x ∈ t.value.data, isPyDigit x = true ∨ x = '.' := by
  obtain ⟨consumed, rest2, heq, _, _, hall, _⟩ :=
    scan_number_chars_spec s.rest s.column [] false
  unfold scan_number at h
  split at h
  rename_i rest3 col3 number3 isf3 heq3
  rw [heq] at heq3
  injection heq3 with h1 heq3
  injection heq3 with h2 heq3
  injection heq3 with h3 h4
  rw [List.nil_append] at h3
  subst h3
  split at h
  · split at h
    · exact absurd h (by simp)
    · injection h with h
      injection h with hth _
      rw [← hth]
      exact hall
  · injection h with h
    injection h with hth _
    rw [← hth]
    exact hall

/-- The lexeme of a `scan_number` token is never `read` or `write`. -/
theorem scan_number_ok_not_builtin {s : LexState} {t : Token} {s2 : LexState}
    (h : scan_number s = .ok (t, s2)) :
    t.value ≠ "read" ∧ t.value ≠ "write" := by
  have hchars := scan_number_ok_chars h
  constructor
  · intro hv
    rw [hv] at hchars
    rcases hchars 'r' (by decide) with hd | hd <;> exact absurd hd (by decide)
  · intro hv
    rw [hv] at hchars
    rcases hchars 'w' (by decide) with hd | hd <;> exact absurd hd (by decide)

theorem scan_number_ok_kind {s : LexState} {t : Token} {s2 : LexState}
    (h : scan_number s = .ok (t, s2)) :
    t.type = .INT_LIT ∨ t.type = .FLOAT_LIT := by
  unfold scan_number at h
  split at h
  split at h
  · split at h
    · exact absurd h (by simp)
    · injection h with h
      injection h with hth _
      rw [← hth]
      exact Or.inr rfl
  · injection h with h
    injection h with hth _
    rw [← hth]
    exact Or.inl rfl

/-- One `nt_step` preserves the table invariant, only extends the table,
registers the name of any `IDENTIFIER` token it yields, and classifies
`read`/`write` lexemes as `IDENTIFIER`, provided the restart continuation
does. -/
theorem nt_step_table
    {restart : LexState → Option (Except LexError (Token × LexState))}
    {s : LexState} {t : Token} {s2 : LexState}
    (hre : ∀ s3 t3 s4, TableInv s3.symbol_table →
      restart s3 = some (.ok (t3, s4)) →
      TableInv s4.symbol_table ∧ TableExtends s3.symbol_table s4.symbol_table ∧
      (t3.type = .IDENTIFIER → ∃ i, s4.symbol_table.lookup t3.value = some i) ∧
      ((t3.value = "read" ∨ t3.value = "write") → t3.type = .IDENTIFIER))
    (hInv : TableInv s.symbol_table)
    (h : nt_step restart s = some (.ok (t, s2))) :
    TableInv s2.symbol_table ∧ TableExtends s.symbol_table s2.symbol_table ∧
    (t.type = .IDENTIFIER → ∃ i, s2.symbol_table.lookup t.value = some i) ∧
    ((t.value = "read" ∨ t.value = "write") → t.type = .IDENTIFIER) := by
  unfold nt_step at h
  split at h
  · injection h with h
    injection h with h
    injection h with hth hs
    subst hs
    refine ⟨hInv, tableExtends_refl _, ?_, ?_⟩
    · intro hid
      rw [← hth] at hid
      have hid2 : TokenType.EOF = TokenType.IDENTIFIER := hid
      exact absurd hid2 (by decide)
    · intro hv
      rw [← hth] at hv
      have hv2 : ("" : String) = "read" ∨ ("" : String) = "write" := hv
      rcases hv2 with hv2 | hv2 <;> exact absurd hv2 (by decide)
  · have hline : TableInv (skip_line_comment s).symbol_table := by
      rw [skip_line_comment_table]
      exact hInv
    obtain ⟨hA, hB, hC, hD⟩ := hre _ _ _ hline h
    refine ⟨hA, ?_, hC, hD⟩
    intro n i hi
    apply hB
    rw [skip_line_comment_table]
    exact hi
  · split at h
    · exact absurd h (by simp)
    · rename_i s3 hbc
      have h3 : TableInv s3.symbol_table := by
        rw [skip_block_comment_table hbc]
        exact hInv
      obtain ⟨hA, hB, hC, hD⟩ := hre _ _ _ h3 h
      refine ⟨hA, ?_, hC, hD⟩
      intro n i hi
      apply hB
      rw [skip_block_comment_table hbc]
      exact hi
  · split at h
    · injection h with h
      have htab := scan_number_ok_table h
      have hnb := scan_number_ok_not_builtin h
      refine ⟨by rw [htab]; exact hInv, ?_, ?_, ?_⟩
      · intro n i hi
        rw [htab]
        exact hi
      · intro hid
        rcases scan_number_ok_kind h with hk | hk <;>
          (rw [hid] at hk; exact absurd hk (by decide))
      · intro hv
        rcases hv with hv | hv
        · exact absurd hv hnb.1
        · exact absurd hv hnb.2
    · split at h
      · injection h with h
        injection h with h
        exact scan_identifier_table hInv h
      · split at h
        · split at h
          · rename_i tt hop
            injection h with h
            injection h with h
            injection h with hth hs
            subst hs
            refine ⟨hInv, tableExtends_refl _, ?_, ?_⟩
            · intro hid
              rw [← hth] at hid
              have hid2 : tt = TokenType.IDENTIFIER := hid
              subst hid2
              exact absurd rfl (operatorType_ne_ident hop)
            · have hvl : t.value.length = 2 := by
                rw [← hth]
                rfl
              intro hv
              rcases hv with hv | hv <;>
                (rw [hv] at hvl; exact absurd hvl (by decide))
          · split at h
            · rename_i tt hfind
              injection h with h
              injection h with h
              injection h with hth hs
              subst hs
              refine ⟨hInv, tableExtends_refl _, ?_, ?_⟩
              · intro hid
                rw [← hth] at hid
                have hid2 : tt = TokenType.IDENTIFIER := hid
                subst hid2
                exact absurd rfl (single_char_ne_ident hfind)
              · have hvl : t.value.length = 1 := by
                  rw [← hth]
                  rfl
                intro hv
                rcases hv with hv | hv <;>
                  (rw [hv] at hvl; exact absurd hvl (by decide))
            · exact absurd h (by simp)
        · split at h
          · rename_i tt hfind
            injection h with h
            injection h with h
            injection h with hth hs
            subst hs
            refine ⟨hInv, tableExtends_refl _, ?_, ?_⟩
            · intro hid
              rw [← hth] at hid
              have hid2 : tt = TokenType.IDENTIFIER := hid
              subst hid2
              exact absurd rfl (single_char_ne_ident hfind)
            · have hvl : t.value.length = 1 := by
                rw [← hth]
                rfl
              intro hv
              rcases hv with hv | hv <;>
                (rw [hv] at hvl; exact absurd hvl (by decide))
          · exact absurd h (by simp)

/-- `next_token` preserves the table invariant, only extends the table,
registers any `IDENTIFIER` token's name, and classifies `read`/`write`
lexemes as `IDENTIFIER` tokens. -/
theorem next_token_table {fuel : Nat} {s : LexState} {t : Token}
    {s2 : LexState} (hInv : TableInv s.symbol_table)
    (h : next_token fuel s = some (.ok (t, s2))) :
    TableInv s2.symbol_table ∧ TableExtends s.symbol_table s2.symbol_table ∧
    (t.type = .IDENTIFIER → ∃ i, s2.symbol_table.lookup t.value = some i) ∧
    ((t.value = "read" ∨ t.value = "write") → t.type = .IDENTIFIER) := by
  induction fuel generalizing s t s2 with
  | zero => exact absurd h (by simp [next_token])
  | succ fuel ih =>
    rw [next_token] at h
    have hws := skip_whitespace_table s
    have hInv2 : TableInv (skip_whitespace s).symbol_table := by
      rw [hws]
      exact hInv
    obtain ⟨hA, hB, hC, hD⟩ :=
      nt_step_table (fun s3 t3 s4 h3 hh => ih h3 hh) hInv2 h
    refine ⟨hA, ?_, hC, hD⟩
    intro n i hi
    apply hB
    rw [hws]
    exact hi

/-- A full scan preserves the table invariant, only ever extends the
table, registers every `IDENTIFIER` token's name, and classifies
`read`/`write` lexemes as `IDENTIFIER` tokens. -/
theorem analyze_loop_table {fuel : Nat} {s : LexState} {ts : List Token}
    {s2 : LexState} (hInv : TableInv s.symbol_table)
    (h : analyze_loop fuel s = some (.ok (ts, s2))) :
    TableInv s2.symbol_table ∧ TableExtends s.symbol_table s2.symbol_table ∧
    (∀ t ∈ ts, t.type = .IDENTIFIER →
      ∃ i, s2.symbol_table.lookup t.value = some i) ∧
    (∀ t ∈ ts, (t.value = "read" ∨ t.value = "write") →
      t.type = .IDENTIFIER) := by
  induction fuel generalizing s ts with
  | zero => exact absurd h (by simp [analyze_loop])
  | succ fuel ih =>
    rw [analyze_loop] at h
    split at h
    · exact absurd h (by simp)
    · exact absurd h (by simp)
    · rename_i t s3 heq
      obtain ⟨hA, hB, hC, hD⟩ := next_token_table hInv heq
      split at h
      · injection h with h
        injection h with h
        injection h with hts hs
        subst hs
        refine ⟨hA, hB, ?_, ?_⟩
        · intro u hu hid
          rw [← hts] at hu
          rw [List.mem_singleton] at hu
          subst hu
          exact hC hid
        · intro u hu hv
          rw [← hts] at hu
          rw [List.mem_singleton] at hu
          subst hu
          exact hD hv
      · split at h
        · exact absurd h (by simp)
        · exact absurd h (by simp)
        · rename_i ts4 s4 heq4
          injection h with h
          injection h with h
          injection h with hts hs
          subst hs
          obtain ⟨hA2, hB2, hC2, hD2⟩ := ih hA heq4
          refine ⟨hA2, tableExtends_trans hB hB2, ?_, ?_⟩
          · intro u hu hid
            rw [← hts] at hu
            rcases List.mem_cons.mp hu with rfl | hu
            · obtain ⟨i, hi⟩ := hC hid
              exact ⟨i, hB2 _ _ hi⟩
            · exact hC2 u hu hid
          · intro u hu hv
            rw [← hts] at hu
            rcases List.mem_cons.mp hu with rfl | hu
            · exact hD hv
            · exact hD2 u hu hv

/-- C10: the pre-seeded `read` and `write` built-in entries survive any
successful scan unchanged (type `"function"`, return type and parameter
types intact); `read`/`write` occurrences in the source produce
`IDENTIFIER` tokens, and no entry keyed `read`/`write` other than the
built-in one can exist. -/
theorem c10_builtins_intact (source : List Char) (ts : List Token)
    (s2 : LexState) (h : analyze source = some (.ok (ts, s2))) :
    s2.symbol_table.lookup "read" = some readInfo ∧
    s2.symbol_table.lookup "write" = some writeInfo ∧
    readInfo.type = "function" ∧ readInfo.return_type = some "any" ∧
    readInfo.param_types = ["void"] ∧
    writeInfo.type = "function" ∧ writeInfo.return_type = some "void" ∧
    writeInfo.param_types = ["any"] ∧
    (∀ t ∈ ts, (t.value = "read" ∨ t.value = "write") →
      t.type = .IDENTIFIER) ∧
    (∀ p ∈ s2.symbol_table, p.1 = "read" → p.2 = readInfo) ∧
    (∀ p ∈ s2.symbol_table, p.1 = "write" → p.2 = writeInfo) := by
  obtain ⟨⟨hnodup, hread, hwrite, hchar⟩, hext, hids, hval⟩ :=
    analyze_loop_table (s := initState source) initial_table_inv h
  refine ⟨hread, hwrite, rfl, rfl, rfl, rfl, rfl, rfl, hval, ?_, ?_⟩
  · intro p hp hp1
    rcases hchar p hp with ⟨_, h2⟩ | ⟨h1, _⟩ | ⟨_, _, hne, _⟩
    · exact h2
    · rw [hp1] at h1
      exact absurd h1 (by decide)
    · exact absurd hp1 hne
  · intro p hp hp1
    rcases hchar p hp with ⟨h1, _⟩ | ⟨_, h2⟩ | ⟨_, _, _, hne⟩
    · rw [hp1] at h1
      exact absurd h1 (by decide)
    · exact h2
    · exact absurd hp1 hne

/-- Witness for C10 at the empty input. -/
theorem c10_witness :
    (initState []).symbol_table.lookup "read" = some readInfo :=
  (c10_builtins_intact [] [⟨.EOF, "", 1, 1⟩] (initState []) rfl).1

/-- C4 counterexample: `read` is a non-keyword identifier, its first
occurrence produces an `IDENTIFIER` token, yet it inserts no entry of
declared type `"unknown"`: the table after scanning `"read"` is exactly
the initial one, whose (only) `read` entry has type `"function"`. -/
theorem c4_counterexample :
    keywordType "read" = none ∧
    (analyze ("read".toList)).map
        (Except.map (fun p => (p.1.map Token.type, p.2.symbol_table))) =
      some (.ok ([.IDENTIFIER, .EOF], initialSymbolTable)) ∧
    initialSymbolTable.lookup "read" = some readInfo ∧
    readInfo.type = "function" ∧
    (∀ p ∈ initialSymbolTable, ¬ p.2.type = "unknown") := by
  refine ⟨by decide, by decide, by decide, rfl, by decide⟩

/-- C4 (amended): keys in the symbol table are unique; keyword lexemes are
never inserted; the first occurrence of a non-keyword identifier other
than the pre-seeded built-ins `read`/`write` inserts one entry with
declared type `"unknown"`, which later occurrences never overwrite
(scanning only ever extends the table); in particular, for
`"int x; int x;"` the key `x` appears exactly once and `int` never. -/
theorem c4_amended_identifier_registration (source : List Char)
    (ts : List Token) (s2 : LexState)
    (h : analyze source = some (.ok (ts, s2))) :
    (s2.symbol_table.map Prod.fst).Nodup ∧
    (∀ w tt, keywordType w = some tt → s2.symbol_table.lookup w = none) ∧
    (∀ t ∈ ts, t.type = .IDENTIFIER → t.value ≠ "read" → t.value ≠ "write" →
      s2.symbol_table.lookup t.value =
        some (SymbolInfo.new t.value "unknown")) ∧
    (∀ (s3 s4 : LexState) (fuel : Nat) (t : Token),
      TableInv s3.symbol_table → next_token fuel s3 = some (.ok (t, s4)) →
      TableExtends s3.symbol_table s4.symbol_table) ∧
    (analyze ("int x; int x;".toList)).map
        (Except.map (fun p => p.2.symbol_table.map Prod.fst)) =
      some (.ok ["read", "write", "x"]) := by
  obtain ⟨⟨hnodup, hread, hwrite, hchar⟩, hext, hids, hval⟩ :=
    analyze_loop_table (s := initState source) initial_table_inv h
  refine ⟨hnodup, ?_, ?_, ?_, by decide⟩
  · intro w tt hkw
    rcases ho : s2.symbol_table.lookup w with _ | i
    · rfl
    · exfalso
      unfold SymbolTable.lookup at ho
      rcases hf : s2.symbol_table.find? (fun p => p.1 = w) with _ | p
      · rw [hf] at ho
        exact absurd ho (by simp)
      · have hp1 : p.1 = w := by simpa using List.find?_some hf
        have hmem := List.mem_of_find?_eq_some hf
        rcases hchar p hmem with ⟨h1, _⟩ | ⟨h1, _⟩ | ⟨h1, _, _, _⟩
        · rw [hp1] at h1
          rw [h1] at hkw
          rw [show keywordType "read" = none from rfl] at hkw
          exact Option.noConfusion hkw
        · rw [hp1] at h1
          rw [h1] at hkw
          rw [show keywordType "write" = none from rfl] at hkw
          exact Option.noConfusion hkw
        · rw [hp1] at h1
          rw [h1] at hkw
          exact Option.noConfusion hkw
  · intro t ht hid hnr hnw
    obtain ⟨i, hi⟩ := hids t ht hid
    unfold SymbolTable.lookup at hi
    rcases hf : s2.symbol_table.find? (fun p => p.1 = t.value) with _ | p
    · rw [hf] at hi
      exact absurd hi (by simp)
    · rw [hf] at hi
      have hp1 : p.1 = t.value := by simpa using List.find?_some hf
      have hmem := List.mem_of_find?_eq_some hf
      rcases hchar p hmem with ⟨h1, _⟩ | ⟨h1, _⟩ | ⟨_, h2, _, _⟩
      · rw [hp1] at h1
        exact absurd h1 hnr
      · rw [hp1] at h1
        exact absurd h1 hnw
      · unfold SymbolTable.lookup
        rw [hf]
        rw [hp1] at h2
        simp only [Option.map_some']
        rw [h2]
  · intro s3 s4 fuel t hInv3 hnt
    exact (next_token_table hInv3 hnt).2.1

/-- Witness for C4 at the input `x`. -/
theorem c4_witness :
    (LexState.mk [] 1 2
        (SymbolTable.insert initialSymbolTable "x"
          (SymbolInfo.new "x" "unknown"))).symbol_table.lookup "x" =
      some (SymbolInfo.new "x" "unknown") :=
  (c4_amended_identifier_registration ("x".toList)
      [⟨.IDENTIFIER, "x", 1, 1⟩, ⟨.EOF, "", 1, 2⟩]
      (LexState.mk [] 1 2
        (SymbolTable.insert initialSymbolTable "x"
          (SymbolInfo.new "x" "unknown"))) rfl).2.2.1
    ⟨.IDENTIFIER, "x", 1, 1⟩ (by decide) rfl (by decide) (by decide)

/-! ## Whitespace- and comment-only input -/

/-- `body` contains no adjacent `*/` pair, so a block-comment body made of
it is closed exactly by the closer that follows it. -/
def noStarSlash : List Char → Bool
  | a :: b :: rest => !(a = '*' && b = '/') && noStarSlash (b :: rest)
  | _ => true

/-- Insignificant input: an arbitrary interleaving of whitespace, line
comments (terminated by a kept newline or by end of input) and closed
block comments. -/
inductive Insig : List Char → Prop where
  | nil : Insig []
  | ws {c : Char} {cs : List Char} :
      isPySpace c = true → Insig cs → Insig (c :: cs)
  | lineEof {body : List Char} :
      (∀ x ∈ body, x ≠ '\n') → Insig ('/' :: '/' :: body)
  | lineNl {body cs : List Char} :
      (∀ x ∈ body, x ≠ '\n') → Insig cs →
      Insig ('/' :: '/' :: body ++ '\n' :: cs)
  | block {body cs : List Char} :
      noStarSlash body = true → Insig cs →
      Insig ('/' :: '*' :: body ++ '*' :: '/' :: cs)

/-- One whitespace character is absorbed into `skip_whitespace`. -/
theorem skip_whitespace_cons {s : LexState} {c : Char} {cs : List Char}
    (h1 : s.rest = c :: cs) (h2 : isPySpace c = true) :
    skip_whitespace s =
      skip_whitespace { s with
        rest := cs,
        line := if c = '\n' then s.line + 1 else s.line,
        column := if c = '\n' then 1 else s.column + 1 } := by
  obtain ⟨rest, line, column, st⟩ := s
  simp only at h1
  subst h1
  unfold skip_whitespace
  rw [skip_ws_chars, if_pos h2]

theorem next_token_ws_cons {fuel : Nat} {s : LexState} {c : Char}
    {cs : List Char} (h1 : s.rest = c :: cs) (h2 : isPySpace c = true) :
    next_token fuel s =
      next_token fuel { s with
        rest := cs,
        line := if c = '\n' then s.line + 1 else s.line,
        column := if c = '\n' then 1 else s.column + 1 } := by
  cases fuel with
  | zero => rfl
  | succ fuel =>
    rw [next_token, next_token, skip_whitespace_cons h1 h2]

/-- A line comment with no newline runs to the end of the input. -/
theorem skip_lc_chars_no_nl {body : List Char} (h : ∀ x ∈ body, x ≠ '\n') :
    skip_lc_chars body = [] := by
  induction body with
  | nil => rfl
  | cons a body ih =>
    rw [skip_lc_chars, if_neg (h a (by simp))]
    exact ih fun x hx => h x (by simp [hx])

/-- A line comment stops at (and keeps) the first newline. -/
theorem skip_lc_chars_to_nl {body cs : List Char}
    (h : ∀ x ∈ body, x ≠ '\n') :
    skip_lc_chars (body ++ '\n' :: cs) = '\n' :: cs := by
  induction body with
  | nil => rfl
  | cons a body ih =>
    rw [List.cons_append, skip_lc_chars, if_neg (h a (by simp))]
    exact ih fun x hx => h x (by simp [hx])

/-- A block-comment body with no `*/` pair inside is scanned through to
the closer that follows it, leaving exactly the input after the closer. -/
theorem skip_bc_chars_closes {body : List Char} (h : noStarSlash body = true) :
    ∀ (cs : List Char) (line col : Nat), ∃ line2 col2,
      skip_bc_chars (body ++ '*' :: '/' :: cs) line col =
        .ok (cs, line2, col2) := by
  induction body with
  | nil =>
    intro cs line col
    exact ⟨line, col, by rw [List.nil_append, skip_bc_chars, if_pos (by decide)]⟩
  | cons a body ih =>
    intro cs line col
    cases body with
    | nil =>
      have hstep : ∀ l k, ∃ l2 k2,
          skip_bc_chars ('*' :: '/' :: cs) l k = .ok (cs, l2, k2) :=
        fun l k => ⟨l, k, by rw [skip_bc_chars, if_pos (by decide)]⟩
      rw [List.cons_append, List.nil_append, skip_bc_chars,
        if_neg (by simp)]
      by_cases ha : a = '\n'
      · rw [if_pos ha]
        exact hstep _ _
      · rw [if_neg ha]
        exact hstep _ _
    | cons b body2 =>
      have hpair : (decide (a = '*') && decide (b = '/')) = false := by
        cases hx : (decide (a = '*') && decide (b = '/')) with
        | false => rfl
        | true =>
          unfold noStarSlash at h
          rw [hx] at h
          simp at h
      have htail : noStarSlash (b :: body2) = true := by
        unfold noStarSlash at h
        exact (Bool.and_eq_true _ _ |>.mp h).2
      rw [List.cons_append, List.cons_append, skip_bc_chars,
        if_neg (by simp [hpair])]
      by_cases ha : a = '\n'
      · rw [if_pos ha]
        exact ih htail cs _ _
      · rw [if_neg ha]
        exact ih htail cs _ _

/-- Scanning any state whose remaining input is insignificant yields the
end-of-input token. -/
theorem insig_next_token : ∀ (n : Nat) (s : LexState) (fuel : Nat),
    s.rest.length ≤ n → Insig s.rest → s.rest.length < fuel →
    ∃ s2, next_token fuel s =
      some (.ok (⟨.EOF, "", s2.line, s2.column⟩, s2)) := by
  intro n
  induction n with
  | zero =>
    intro s fuel hle hIns hfuel
    obtain ⟨rest, line, column, st⟩ := s
    simp only at hle hfuel ⊢
    have hnil : rest = [] := List.length_eq_zero.mp (Nat.le_zero.mp hle)
    subst hnil
    cases fuel with
    | zero => exact absurd hfuel (by simp)
    | succ fuel => exact ⟨⟨[], line, column, st⟩, rfl⟩
  | succ n ih =>
    intro s fuel hle hIns hfuel
    obtain ⟨rest, line, column, st⟩ := s
    simp only at hle hIns hfuel ⊢
    cases fuel with
    | zero => exact absurd hfuel (by simp)
    | succ fuel =>
    cases hIns with
    | nil => exact ⟨⟨[], line, column, st⟩, rfl⟩
    | ws hsp hcs =>
      rename_i c cs
      rw [next_token_ws_cons (s := ⟨c :: cs, line, column, st⟩) rfl hsp]
      apply ih
      · simp only [List.length_cons] at hle ⊢
        omega
      · exact hcs
      · simp only [List.length_cons] at hfuel ⊢
        omega
    | lineEof hno =>
      rename_i body
      rw [next_token,
        skip_whitespace_no_space (s := ⟨'/' :: '/' :: body, line, column, st⟩)
          rfl (by decide)]
      have hstep : nt_step (next_token fuel) ⟨'/' :: '/' :: body, line, column, st⟩ =
          next_token fuel
            (skip_line_comment ⟨'/' :: '/' :: body, line, column, st⟩) := rfl
      have hslc : skip_line_comment ⟨'/' :: '/' :: body, line, column, st⟩ =
          ⟨[], line, column, st⟩ := by
        unfold skip_line_comment
        simp only
        rw [show List.drop 2 ('/' :: '/' :: body) = body from rfl,
          skip_lc_chars_no_nl hno]
      rw [hstep, hslc]
      apply ih
      · simp
      · exact Insig.nil
      · simp only [List.length_cons, List.length_nil] at hfuel ⊢
        omega
    | lineNl hno hcs =>
      rename_i body cs
      rw [next_token,
        skip_whitespace_no_space
          (s := ⟨('/' :: '/' :: body) ++ '\n' :: cs, line, column, st⟩)
          rfl (by decide)]
      have hstep : nt_step (next_token fuel)
            ⟨('/' :: '/' :: body) ++ '\n' :: cs, line, column, st⟩ =
          next_token fuel
            (skip_line_comment
              ⟨('/' :: '/' :: body) ++ '\n' :: cs, line, column, st⟩) := rfl
      have hslc : skip_line_comment
            ⟨('/' :: '/' :: body) ++ '\n' :: cs, line, column, st⟩ =
          ⟨'\n' :: cs, line, column, st⟩ := by
        unfold skip_line_comment
        simp only
        rw [show List.drop 2 (('/' :: '/' :: body) ++ '\n' :: cs) =
            body ++ '\n' :: cs from rfl,
          skip_lc_chars_to_nl hno]
      rw [hstep, hslc]
      apply ih
      · simp only [List.length_append, List.length_cons] at hle ⊢
        omega
      · exact Insig.ws (by decide) hcs
      · simp only [List.length_append, List.length_cons] at hfuel ⊢
        omega
    | block hns hcs =>
      rename_i body cs
      rw [next_token,
        skip_whitespace_no_space
          (s := ⟨('/' :: '*' :: body) ++ '*' :: '/' :: cs, line, column, st⟩)
          rfl (by decide)]
      obtain ⟨line2, col2, hbc⟩ := skip_bc_chars_closes hns cs line column
      have hsbc : skip_block_comment
            ⟨('/' :: '*' :: body) ++ '*' :: '/' :: cs, line, column, st⟩ =
          .ok ⟨cs, line2, col2, st⟩ := by
        unfold skip_block_comment
        simp only
        rw [show List.drop 2 (('/' :: '*' :: body) ++ '*' :: '/' :: cs) =
            body ++ '*' :: '/' :: cs from rfl, hbc]
      have hstep : nt_step (next_token fuel)
            ⟨('/' :: '*' :: body) ++ '*' :: '/' :: cs, line, column, st⟩ =
          (match skip_block_comment
              ⟨('/' :: '*' :: body) ++ '*' :: '/' :: cs, line, column, st⟩ with
           | .error e => some (.error e)
           | .ok s2 => next_token fuel s2) := rfl
      rw [hstep, hsbc]
      apply ih
      · simp only [List.length_append, List.length_cons] at hle ⊢
        omega
      · exact hcs
      · simp only [List.length_append, List.length_cons] at hfuel ⊢
        omega

/-- C3: scanning any input consisting only of whitespace and comments
(interleaved blank lines, line comments, closed block comments) succeeds
and yields exactly the one-element token sequence `[end-of-input]`. -/
theorem c3_insignificant_input_scans_to_eof (source : List Char)
    (hIns : Insig source) :
    ∃ t s2, analyze source = some (.ok ([t], s2)) ∧ t.type = .EOF := by
  obtain ⟨s2, h2⟩ := insig_next_token source.length (initState source)
    (source.length + 1) (Nat.le_refl _) hIns (Nat.lt_succ_self _)
  refine ⟨⟨.EOF, "", s2.line, s2.column⟩, s2, ?_, rfl⟩
  unfold analyze
  rw [analyze_loop]
  rw [show ((initState source).rest.length + 1) = source.length + 1 from rfl]
  rw [h2]
  rfl

/-- Witness for C3 at the comment-only input `/**/ // x`. -/
theorem c3_witness :
    ∃ t s2, analyze ("/**/ // x".toList) = some (.ok ([t], s2)) ∧
      t.type = .EOF :=
  c3_insignificant_input_scans_to_eof ("/**/ // x".toList)
    (@Insig.block [] [' ', '/', '/', ' ', 'x'] (by decide)
      (Insig.ws (by decide) (@Insig.lineEof [' ', 'x'] (by decide))))
